import Mathlib

/-!
Verification of the ktapper typing-trainer engine (src/main.rs).

The engine is shallowly embedded:
* Rust `String` / `&str` values are `List Char` (Rust's `chars()` iterates
  Unicode scalar values, exactly Lean's `Char`);
* `std::time::Instant` is a `Nat` timestamp in milliseconds; `Instant`
  overflow of `checked_add` is modelled by the abstract bound `instantMax`;
* `HashSet<usize>` is `Finset ℕ`;
* `usize` is `Nat` (64-bit parse bounds made explicit where parsing occurs);
* floating point appears only in `calculate_accuracy` (`f32`); it is
  idealised as exact rational arithmetic `ℚ`.

The event loop `run` is embedded as a total step function `step` on the
`App` record; one `Ev` carries the key code together with the wall-clock
time `now` at which the event is processed and the word `fresh` that the
external word source (`random_word::get`) would supply if a new word is
requested while handling this event.
-/

namespace Ktapper

/-- The seven supported dictionary languages (`random_word::Lang` as used
by `get_lang` / `next_lang` / `prev_lang` in main.rs). -/
inductive Lang where
  | En | Ru | De | Es | Fr | Ja | Zh
deriving DecidableEq, Repr

/-- `fn next_lang(lang: Lang) -> Lang` (main.rs 188-198). -/
def next_lang : Lang → Lang
  | .En => .Ru
  | .Ru => .De
  | .De => .Es
  | .Es => .Fr
  | .Fr => .Ja
  | .Ja => .Zh
  | .Zh => .En

/-- `fn prev_lang(lang: Lang) -> Lang` (main.rs 200-210). -/
def prev_lang : Lang → Lang
  | .En => .Zh
  | .Ru => .En
  | .De => .Ru
  | .Es => .De
  | .Fr => .Es
  | .Ja => .Fr
  | .Zh => .Ja

/-- `enum SelectedSetting { Lang, Limit }` (main.rs 41-46). -/
inductive SelectedSetting where
  | Lang | Limit
deriving DecidableEq, Repr

/-- `enum AppState` (main.rs 48-55).  `Pause` carries the pause `Instant`,
`Results` carries the `ListState` selection cursor. -/
inductive AppState where
  | Input
  | Pause (pausedAt : Nat)
  | Results (cursor : Nat)
  | Settings
deriving DecidableEq, Repr

/-- `struct Word` (main.rs 227-231): a completed word with the set of
character indices that were typed wrongly. -/
structure Word where
  word : List Char
  wrong_chars : Finset Nat
deriving DecidableEq

/-- `struct App` (main.rs 23-39).  `current_word` owns its text (the Rust
code borrows it from the word source). -/
structure App where
  exit : Bool
  app_state : AppState
  current_word : List Char
  input : List Char
  start : Option Nat
  finished_time : Option Nat
  wrong_input_chars : Finset Nat
  words_limit : Nat
  lang : Lang
  words : List Word
  wrong_words : Finset Nat
  settings_changed : Bool
  selected_setting : SelectedSetting
  temp_lang : Lang
  temp_limit : List Char
deriving DecidableEq

/-! ### Decimal parsing and printing

`temp_limit` is a Rust `String`; the settings code parses it with
`str::parse::<i32>` (the Left arm, whose integer type defaults to `i32`)
and `str::parse::<usize>` (the Right arm and `apply_settings`), and prints
numbers back with `to_string`.  Rust's integer `from_str` accepts an
optional leading sign followed by one or more ASCII digits and fails on
overflow; overflow is checked at every accumulation step, which for a
digit string is equivalent to a bound check on the final value. -/

/-- Numeric value of an ASCII digit character. -/
def digitVal (c : Char) : Nat := c.toNat - 48

/-- Value of a most-significant-first digit string. -/
def valDigits (s : List Char) : Nat := s.foldl (fun a c => 10 * a + digitVal c) 0

/-- Digit-string parser with an overflow bound: Rust `from_str_radix` on
the digits after the optional sign. -/
def parseDigits (bound : Nat) (s : List Char) : Option Nat :=
  if s ≠ [] ∧ s.all (·.isDigit) ∧ valDigits s ≤ bound then some (valDigits s) else none

/-- `usize::MAX` on a 64-bit target. -/
def U64MAX : Nat := 2 ^ 64 - 1

/-- `i32::MAX`. -/
def I32MAX : Nat := 2 ^ 31 - 1

/-- Rust `str::parse` for an unsigned integer type with maximum `bound`:
an optional `+` sign, then digits. -/
def rustParseUnsigned (bound : Nat) (s : List Char) : Option Nat :=
  if s.head? = some '+' then parseDigits bound s.tail else parseDigits bound s

/-- Rust `str::parse::<i32>`: optional sign, digits, `i32` range check. -/
def rustParseI32 (s : List Char) : Option Int :=
  if s.head? = some '-' then (parseDigits (2 ^ 31) s.tail).map (fun n => -(n : Int))
  else if s.head? = some '+' then (parseDigits I32MAX s.tail).map (fun n => (n : Int))
  else (parseDigits I32MAX s).map (fun n => (n : Int))

/-- Fuel-driven digit printer: most-significant digit first, no output for
`0` (handled by `natToString`). -/
def toDigitsAux : Nat → Nat → List Char
  | 0, _ => []
  | fuel + 1, n => if n = 0 then [] else toDigitsAux fuel (n / 10) ++ [Nat.digitChar (n % 10)]

/-- Rust `to_string()` on a nonnegative integer. -/
def natToString (n : Nat) : List Char :=
  if n = 0 then ['0'] else toDigitsAux (n + 1) n

/-! ### Settings limit-field adjustment

In `run` (main.rs 366-381) the Left arm parses `temp_limit` with an
unannotated integer type which Rust defaults to `i32`, so `limit - 1` is
signed and cannot underflow; the Right arm is inferred as `usize` from
`u16::MAX as usize`. -/

/-- The Left-key update of the staged limit text (main.rs 368-372):
`max(1, parse().unwrap_or(1) - 1)`, printed back. -/
def limitLeft (s : List Char) : List Char :=
  let limit : Int := (rustParseI32 s).getD 1
  natToString (max 1 (limit - 1)).toNat

/-- The Right-key update of the staged limit text (main.rs 376-380):
`min(u16::MAX as usize, parse().unwrap_or(0).saturating_add(1))`, printed
back. -/
def limitRight (s : List Char) : List Char :=
  let limit : Nat := (rustParseUnsigned U64MAX s).getD 0
  natToString (min 65535 (min U64MAX (limit + 1)))

/-! ### App methods (main.rs 79-172) -/

/-- Abstract upper bound of the `Instant` representation; `checked_add`
fails above it. -/
def instantMax : Nat := 2 ^ 64 - 1

/-- `App::new_word` (main.rs 135-139): fetch `fresh` from the word source,
clear the input and the per-word mistake set. -/
def App.new_word (fresh : List Char) (a : App) : App :=
  { a with current_word := fresh, input := [], wrong_input_chars := ∅ }

/-- `App::restart` (main.rs 90-99). -/
def App.restart (fresh : List Char) (a : App) : App :=
  App.new_word fresh
    { a with app_state := .Input, input := [], wrong_input_chars := ∅,
             words := [], wrong_words := ∅, start := none, finished_time := none }

/-- `App::pause` (main.rs 101-103). -/
def App.pause (now : Nat) (a : App) : App :=
  { a with app_state := .Pause now }

/-- `App::resume` (main.rs 105-113): if paused with a start time, shift
the start time forward by the pause duration; `checked_add` overflow
leaves it unchanged (`unwrap_or(started)`). -/
def App.resume (now : Nat) (a : App) : App :=
  let a1 :=
    match a.app_state, a.start with
    | .Pause pausedAt, some started =>
        let d := now - pausedAt
        { a with start := some (if started + d ≤ instantMax then started + d else started) }
    | _, _ => a
  { a1 with app_state := .Input }

/-- `App::finish` (main.rs 119-129): record the elapsed milliseconds and
enter Results with the cursor on the first entry.  The Rust code unwraps
`self.start`; on every call path `start` is set, the `getD 0` default is
never exercised by a reachable call. -/
def App.finish (now : Nat) (a : App) : App :=
  { a with finished_time := some (now - a.start.getD 0), app_state := .Results 0 }

/-- `App::open_settings` (main.rs 141-145). -/
def App.open_settings (a : App) : App :=
  { a with temp_lang := a.lang, temp_limit := natToString a.words_limit,
           app_state := .Settings }

/-- The resolved limit computed by `apply_settings` (main.rs 148-152):
parse `temp_limit` as `usize`, keep the old live limit on failure or a
zero value. -/
def App.new_limit (a : App) : Nat :=
  ((rustParseUnsigned U64MAX a.temp_limit).map
    (fun val => if 0 < val then val else a.words_limit)).getD a.words_limit

/-- `App::apply_settings` (main.rs 147-159). -/
def App.apply_settings (a : App) : App :=
  if a.lang ≠ a.temp_lang ∨ a.words_limit ≠ a.new_limit then
    { a with lang := a.temp_lang, words_limit := a.new_limit, settings_changed := true }
  else a

/-- Total character count of the completed words (main.rs 162). -/
def charSum (ws : List Word) : Nat := (ws.map (fun w => w.word.length)).sum

/-- Total wrong-character count of the completed words (main.rs 163). -/
def wrongSum (ws : List Word) : Nat := (ws.map (fun w => w.wrong_chars.card)).sum

/-- `App::calculate_accuracy` (main.rs 161-172), with `f32` idealised as
`ℚ`.  `total_typed_chars - total_wrong_chars` is a `usize` subtraction;
it is modelled by truncated `Nat` subtraction and only reasoned about
under the no-underflow condition that session-produced word lists satisfy. -/
def App.calculate_accuracy (a : App) : ℚ :=
  let total_typed_chars := charSum a.words
  let total_wrong_chars := wrongSum a.words
  if total_typed_chars = 0 then 100
  else (((total_typed_chars - total_wrong_chars : Nat) : ℚ) / (total_typed_chars : ℚ)) * 100

/-- `App::default` (main.rs 57-77). -/
def App.default : App :=
  { exit := false, app_state := .Input, current_word := [], input := [],
    start := none, finished_time := none, wrong_input_chars := ∅,
    words_limit := 50, lang := .En, words := [], wrong_words := ∅,
    settings_changed := false, selected_setting := .Lang, temp_lang := .En,
    temp_limit := ['5', '0'] }

/-- `App::from(config)` (main.rs 80-88) with the configuration already
resolved to a `Lang` and a limit, and the first word `w0` supplied by the
word source. -/
def App.init (lang : Lang) (limit : Nat) (w0 : List Char) : App :=
  { App.default with lang := lang, current_word := w0, words_limit := limit,
                     temp_lang := lang, temp_limit := natToString limit }

/-! ### The event loop (`run`, main.rs 297-407) -/

/-- The `crossterm` key codes the loop inspects. -/
inductive KeyCode where
  | esc | enter | up | down | left | right | backspace
  | char (c : Char)
deriving DecidableEq, Repr

/-- One processed key event: the key, the wall-clock instant `now` at
which handlers would call `Instant::now()`, and the word `fresh` that
`random_word::get` would return if the handler requests one. -/
structure Ev where
  key : KeyCode
  now : Nat
  fresh : List Char
deriving DecidableEq, Repr

/-- The `KeyCode::Char(ch)` arm of the `AppState::Input` branch
(main.rs 304-333).  The Rust conditionals that mutate exactly one field
(`if app.start.is_none() { app.start(); }` and the two `insert` guards)
are written as field-level conditionals, which is the same state change. -/
def inputChar (ch : Char) (now : Nat) (fresh : List Char) (a : App) : App :=
  let a1 := { a with start := if a.start = none then some now else a.start }
  let a2 := { a1 with input := a1.input ++ [ch] }
  let input_len := a2.input.length
  let index := input_len - 1
  let a3 := { a2 with wrong_input_chars :=
      (if a2.current_word.get? index ≠ a2.input.get? index
       then insert index a2.wrong_input_chars else a2.wrong_input_chars) }
  if a3.current_word.length ≤ input_len then
    let a4 := { a3 with wrong_words :=
        (if a3.wrong_input_chars ≠ ∅ then insert a3.words.length a3.wrong_words
         else a3.wrong_words) }
    let a5 := { a4 with words := a4.words ++ [Word.mk a4.current_word a4.wrong_input_chars],
                        wrong_input_chars := ∅ }
    if a5.words_limit ≤ a5.words.length then a5.finish now else a5.new_word fresh
  else a3

/-- The `AppState::Pause` branch (main.rs 336-342): `q` exits, `s` opens
settings, any other key resumes. -/
def pauseKey (key : KeyCode) (now : Nat) (a : App) : App :=
  match key with
  | .char ch =>
      if ch = 'q' then { a with exit := true }
      else if ch = 's' then a.open_settings
      else a.resume now
  | _ => a.resume now

/-- The `AppState::Results` branch (main.rs 343-350). -/
def resultsKey (cursor : Nat) (key : KeyCode) (fresh : List Char) (a : App) : App :=
  match key with
  | .up => { a with app_state := .Results (cursor - 1) }
  | .down => { a with app_state := .Results (cursor + 1) }
  | .char ch =>
      if ch = 'q' then { a with exit := true }
      else if ch = 'r' then a.restart fresh
      else if ch = 's' then a.open_settings
      else a
  | _ => a

/-- The `AppState::Settings` branch (main.rs 351-401). -/
def settingsKey (key : KeyCode) (fresh : List Char) (a : App) : App :=
  match key with
  | .esc =>
      let a1 := { a with app_state := AppState.Input }
      if a1.settings_changed then { a1.restart fresh with settings_changed := false } else a1
  | .up | .down =>
      { a with selected_setting :=
          if a.selected_setting = SelectedSetting.Lang then .Limit else .Lang }
  | .left =>
      match a.selected_setting with
      | .Lang => { a with temp_lang := prev_lang a.temp_lang }
      | .Limit => { a with temp_limit := limitLeft a.temp_limit }
  | .right =>
      match a.selected_setting with
      | .Lang => { a with temp_lang := next_lang a.temp_lang }
      | .Limit => { a with temp_limit := limitRight a.temp_limit }
  | .char ch =>
      if ch.isDigit ∧ a.selected_setting = SelectedSetting.Limit
      then { a with temp_limit := a.temp_limit ++ [ch] }
      else a
  | .backspace =>
      if a.selected_setting = SelectedSetting.Limit
      then { a with temp_limit := a.temp_limit.dropLast }
      else a
  | .enter =>
      let a1 := { a.apply_settings with app_state := AppState.Input }
      if a1.settings_changed then { a1.restart fresh with settings_changed := false } else a1

/-- One iteration of the `run` loop on a key event; once `exit` is set the
loop reads no further events, so the step is the identity then. -/
def step (a : App) (e : Ev) : App :=
  if a.exit then a else
  match a.app_state with
  | .Input =>
      match e.key with
      | .esc => a.pause e.now
      | .char ch => inputChar ch e.now e.fresh a
      | _ => a
  | .Pause _ => pauseKey e.key e.now a
  | .Results cursor => resultsKey cursor e.key e.fresh a
  | .Settings => settingsKey e.key e.fresh a

/-- The state after processing a list of key events. -/
def reach (a : App) : List Ev → App
  | [] => a
  | e :: es => reach (step a e) es

/-! ### Predicates used by the stated properties -/

/-- Whether a phase is the Results phase. -/
def isResults : AppState → Bool
  | .Results _ => true
  | _ => false

/-- A trace restriction: no event ever presses `s` while the session is in
the Results phase (the only way to enter Settings from Results). -/
def avoidsResultsSettings (a : App) : List Ev → Bool
  | [] => true
  | e :: es =>
      (!(isResults a.app_state && decide (e.key = KeyCode.char 's'))) &&
      avoidsResultsSettings (step a e) es

/-- Every word a handler may fetch during the trace is nonempty (the
contract of the external word source). -/
def allFreshNonempty (evs : List Ev) : Bool := evs.all (fun e => !e.fresh.isEmpty)

/-- Phase/word-count coupling: strictly below the limit outside Results,
exactly the limit in Results. -/
def phaseWords (a : App) : Prop :=
  if isResults a.app_state = true then a.words.length = a.words_limit
  else a.words.length < a.words_limit

/-- Invariant for the word-count claim: a positive limit plus the
phase/word-count coupling. -/
def Inv1 (a : App) : Prop := 1 ≤ a.words_limit ∧ phaseWords a

/-- Every completed word's mistake set is no larger than the word. -/
def goodWords (ws : List Word) : Prop := ∀ w ∈ ws, w.wrong_chars.card ≤ w.word.length

/-- Invariant for the mistake-set claim: the current word is nonempty, the
pending mistake indices lie below the typed length, a pending mistake set
can only be nonempty while the word is unfinished, and all completed words
are `goodWords`. -/
def Inv10 (a : App) : Prop :=
  1 ≤ a.current_word.length ∧
  (∀ i ∈ a.wrong_input_chars, i < a.input.length) ∧
  (a.input.length < a.current_word.length ∨ a.wrong_input_chars = ∅) ∧
  goodWords a.words

/-! ### Concrete session states used as evaluation points -/

/-- A session mid-word: target `"HELLO"`, typed `"HELX"`, mismatch at
index 3 already recorded. -/
def helloApp : App :=
  { App.default with
    current_word := "HELLO".data,
    input := "HELX".data,
    wrong_input_chars := {3} }

/-- A Settings state focused on the limit field with staged buffer `"1"`. -/
def limitApp : App :=
  { App.default with
    app_state := .Settings,
    selected_setting := .Limit,
    temp_limit := ['1'] }

/-- A key-event trace on a one-word session (limit 1, first word `"a"`):
finish the word, enter Settings from Results with `s`, leave it unchanged
with escape, then type one more character. -/
def breakEvs : List Ev :=
  [⟨.char 'a', 0, ['b']⟩, ⟨.char 's', 1, ['b']⟩, ⟨.esc, 2, ['b']⟩, ⟨.char 'x', 3, ['b']⟩]

/-- The session state that `breakEvs` reaches from a fresh limit-1
session. -/
def breakApp : App := reach (App.init .En 1 ['a']) breakEvs

/-! ### Printer / parser lemmas -/

lemma valDigits_append (s : List Char) (c : Char) :
    valDigits (s ++ [c]) = 10 * valDigits s + digitVal c := by
  simp [valDigits, List.foldl_append]

lemma digitVal_digitChar {d : Nat} (h : d < 10) : digitVal (Nat.digitChar d) = d := by
  interval_cases d <;> decide

lemma isDigit_digitChar {d : Nat} (h : d < 10) : (Nat.digitChar d).isDigit = true := by
  interval_cases d <;> decide

lemma toDigitsAux_zero (fuel : Nat) : toDigitsAux fuel 0 = [] := by
  cases fuel <;> rfl

lemma toDigitsAux_spec :
    ∀ fuel n, n ≠ 0 → n ≤ fuel →
      toDigitsAux fuel n ≠ [] ∧ (toDigitsAux fuel n).all (·.isDigit) = true ∧
        valDigits (toDigitsAux fuel n) = n := by
  intro fuel
  induction fuel with
  | zero => intro n hn hle; omega
  | succ f ih =>
    intro n hn hle
    have hmod : n % 10 < 10 := Nat.mod_lt _ (by norm_num)
    rw [toDigitsAux, if_neg hn]
    by_cases hdiv : n / 10 = 0
    · have hlt : n < 10 := by omega
      rw [hdiv, toDigitsAux_zero]
      refine ⟨by simp, by simp [isDigit_digitChar hmod], ?_⟩
      have hm : n % 10 = n := Nat.mod_eq_of_lt hlt
      have hv : valDigits [Nat.digitChar (n % 10)] = digitVal (Nat.digitChar (n % 10)) := by
        simp [valDigits]
      rw [List.nil_append, hv, digitVal_digitChar hmod, hm]
    · have hlt : n / 10 < n := Nat.div_lt_self (by omega) (by norm_num)
      obtain ⟨h1, h2, h3⟩ := ih (n / 10) hdiv (by omega)
      refine ⟨by simp, ?_, ?_⟩
      · simp only [List.all_append, h2, Bool.true_and, List.all_cons, List.all_nil,
          Bool.and_true]
        exact isDigit_digitChar hmod
      · rw [valDigits_append, h3, digitVal_digitChar hmod]
        omega

lemma natToString_spec (n : Nat) :
    natToString n ≠ [] ∧ (natToString n).all (·.isDigit) = true ∧
      valDigits (natToString n) = n := by
  by_cases h : n = 0
  · subst h; refine ⟨by simp [natToString], by decide, by decide⟩
  · rw [natToString, if_neg h]
    exact toDigitsAux_spec (n + 1) n h (by omega)

lemma parseDigits_natToString {bound n : Nat} (h : n ≤ bound) :
    parseDigits bound (natToString n) = some n := by
  obtain ⟨h1, h2, h3⟩ := natToString_spec n
  have hb : valDigits (natToString n) ≤ bound := by rw [h3]; exact h
  rw [parseDigits, if_pos ⟨h1, h2, hb⟩, h3]

lemma head_isDigit_of_all {s : List Char} {c : Char}
    (h : s.all (·.isDigit) = true) (hc : s.head? = some c) : c.isDigit = true := by
  cases s with
  | nil => simp at hc
  | cons d t =>
    simp only [List.head?_cons, Option.some.injEq] at hc
    subst hc
    simp only [List.all_cons, Bool.and_eq_true] at h
    exact h.1

lemma rustParseUnsigned_natToString {bound n : Nat} (h : n ≤ bound) :
    rustParseUnsigned bound (natToString n) = some n := by
  obtain ⟨h1, h2, _⟩ := natToString_spec n
  rw [rustParseUnsigned, if_neg, parseDigits_natToString h]
  intro hplus
  have := head_isDigit_of_all h2 hplus
  simp at this

lemma rustParseI32_of_digits {s : List Char} (h : s.all (·.isDigit) = true) :
    rustParseI32 s = (parseDigits I32MAX s).map (fun n => (n : Int)) := by
  rw [rustParseI32]
  rw [if_neg, if_neg]
  · intro hplus
    have := head_isDigit_of_all h hplus
    simp at this
  · intro hminus
    have := head_isDigit_of_all h hminus
    simp at this

lemma rustParseUnsigned_of_digits {bound : Nat} {s : List Char}
    (h : s.all (·.isDigit) = true) :
    rustParseUnsigned bound s = parseDigits bound s := by
  rw [rustParseUnsigned, if_neg]
  intro hplus
  have := head_isDigit_of_all h hplus
  simp at this

lemma parseDigits_le {bound : Nat} {s : List Char} {n : Nat}
    (h : parseDigits bound s = some n) : n ≤ bound := by
  rw [parseDigits] at h
  split at h
  · next hc => cases h; exact hc.2.2
  · cases h

/-! ### C9: language cycling -/

/-- C9: `prev_lang` and `next_lang` are mutual inverses on every supported
language, and iterating `next_lang` seven times returns to the starting
language after passing through every one of the seven languages. -/
theorem claim9_lang_cycle :
    ∀ l : Lang, prev_lang (next_lang l) = l ∧ next_lang (prev_lang l) = l ∧
      next_lang^[7] l = l ∧
      ∀ l' : Lang, l' ∈ (List.range 7).map (fun k => next_lang^[k] l) := by
  intro l
  cases l <;> exact ⟨rfl, rfl, rfl, by intro l'; cases l' <;> decide⟩

/-! ### C4: silent limit fallback in `apply_settings` -/

/-- C4: when the staged limit text does not parse as a `usize` or parses
to `0`, `apply_settings` keeps the live `words_limit` unchanged and
touches no session progress (the fallback is silent: the operation is
total and reports nothing). -/
theorem claim4_silent_fallback (a : App)
    (h : rustParseUnsigned U64MAX a.temp_limit = none ∨
         rustParseUnsigned U64MAX a.temp_limit = some 0) :
    (a.apply_settings).words_limit = a.words_limit ∧
    (a.apply_settings).words = a.words ∧ (a.apply_settings).input = a.input ∧
    (a.apply_settings).app_state = a.app_state := by
  have hnl : a.new_limit = a.words_limit := by
    rcases h with hc | hc <;> rw [App.new_limit, hc] <;> rfl
  rw [App.apply_settings]
  split
  · rw [hnl]
    exact ⟨rfl, rfl, rfl, rfl⟩
  · exact ⟨rfl, rfl, rfl, rfl⟩

/-- Witness for C4 at the concrete buffers `"x"` (unparseable) and the
parse value `0`. -/
theorem claim4_witness :
    ({ App.default with temp_limit := ['x'] } : App).apply_settings.words_limit = 50 ∧
    ({ App.default with temp_limit := ['0'] } : App).apply_settings.words_limit = 50 := by
  refine ⟨(claim4_silent_fallback _ (Or.inl (by decide))).1.trans (by decide),
          (claim4_silent_fallback _ (Or.inr (by decide))).1.trans (by decide)⟩

/-! ### C8: accuracy formula and range -/

/-- C8: with the `f32` arithmetic idealised as exact rationals, the
computed accuracy is `100` when the total character count is zero, equals
`(totalChars − totalWrong) / totalChars × 100` otherwise, and always lies
in `[0, 100]`.  The hypothesis `wrongSum ≤ charSum` is the no-underflow
condition of the `usize` subtraction; every session-produced word list
satisfies it (see the C10 development). -/
theorem claim8_accuracy_range (a : App) (_hnu : wrongSum a.words ≤ charSum a.words) :
    (charSum a.words = 0 → a.calculate_accuracy = 100) ∧
    (charSum a.words ≠ 0 →
      a.calculate_accuracy =
        ((charSum a.words - wrongSum a.words : Nat) : ℚ) / (charSum a.words : ℚ) * 100) ∧
    0 ≤ a.calculate_accuracy ∧ a.calculate_accuracy ≤ 100 := by
  rw [App.calculate_accuracy]
  by_cases h0 : charSum a.words = 0
  · simp [h0]
  · rw [if_neg h0]
    refine ⟨fun hc => absurd hc h0, fun _ => rfl, ?_, ?_⟩
    · have h1 : (0 : ℚ) ≤ ((charSum a.words - wrongSum a.words : Nat) : ℚ) := by positivity
      have h2 : (0 : ℚ) ≤ ((charSum a.words : Nat) : ℚ) := by positivity
      positivity
    · have hpos : (0 : ℚ) < ((charSum a.words : Nat) : ℚ) := by
        exact_mod_cast Nat.pos_of_ne_zero h0
      have hle : ((charSum a.words - wrongSum a.words : Nat) : ℚ) ≤ (charSum a.words : ℚ) := by
        exact_mod_cast Nat.sub_le _ _
      have : ((charSum a.words - wrongSum a.words : Nat) : ℚ) / (charSum a.words : ℚ) ≤ 1 :=
        (div_le_one hpos).mpr hle
      nlinarith

/-- Witness for C8: one completed word `"HELLO"` with one mistake gives
accuracy `80`, inside `[0, 100]`. -/
theorem claim8_witness :
    ({ App.default with words := [Word.mk "HELLO".data {3}] } : App).calculate_accuracy = 80 ∧
    0 ≤ ({ App.default with words := [Word.mk "HELLO".data {3}] } : App).calculate_accuracy ∧
    ({ App.default with words := [Word.mk "HELLO".data {3}] } : App).calculate_accuracy ≤ 100 := by
  have h := claim8_accuracy_range { App.default with words := [Word.mk "HELLO".data {3}] }
    (by decide)
  refine ⟨?_, h.2.2.1, h.2.2.2⟩
  rw [h.2.1 (by decide)]
  norm_num [charSum, wrongSum]

/-! ### C3: pause-aware timing -/

/-- C3: `resume` on a paused session with a set start time shifts the
start time forward by exactly the pause duration `now − pausedAt`; if the
`Instant` addition would overflow the start time is left unchanged and the
operation still succeeds; consequently the duration recorded by `finish`
after a pause/resume pair is the wall-clock span minus the paused
interval. -/
theorem claim3_resume_excludes_pause :
    (∀ (a : App) (p s now : Nat), a.app_state = .Pause p → a.start = some s →
       (a.resume now).app_state = .Input ∧
       (s + (now - p) ≤ instantMax → (a.resume now).start = some (s + (now - p))) ∧
       (¬ s + (now - p) ≤ instantMax → (a.resume now).start = some s)) ∧
    (∀ (a : App) (t0 t1 t2 t3 : Nat), a.start = some t0 →
       t0 ≤ t1 → t1 ≤ t2 → t2 ≤ t3 → t0 + (t2 - t1) ≤ instantMax →
       (((a.pause t1).resume t2).finish t3).finished_time =
         some ((t3 - t0) - (t2 - t1))) := by
  constructor
  · intro a p s now h1 h2
    rw [App.resume, h1, h2]
    refine ⟨rfl, fun hle => ?_, fun hgt => ?_⟩
    · simp [if_pos hle]
    · simp [if_neg hgt]
  · intro a t0 t1 t2 t3 hs h01 h12 h23 hov
    have hres : (((a.pause t1).resume t2)).start = some (t0 + (t2 - t1)) := by
      rw [App.resume, App.pause, hs]
      simp only
      rw [if_pos hov]
    rw [App.finish, hres]
    simp only [Option.getD_some, Option.some.injEq]
    omega

/-- Witness for C3 at the spec's example timeline (milliseconds): start at
0, pause at 2000, resume at 5000, finish at 7000 reports 4000 ms — the
7000 ms wall-clock span minus the 3000 ms pause. -/
theorem claim3_witness :
    (((({ App.default with start := some 0 } : App).pause 2000).resume 5000).finish
        7000).finished_time = some 4000 ∧
    (({ App.default with app_state := .Pause 2000, start := some 0 } : App).resume
        5000).start = some 3000 := by
  constructor
  · have h := claim3_resume_excludes_pause.2 { App.default with start := some 0 }
      0 2000 5000 7000 rfl (by omega) (by omega) (by omega) (by decide)
    simpa using h
  · have h := (claim3_resume_excludes_pause.1
      { App.default with app_state := .Pause 2000, start := some 0 } 2000 0 5000 rfl rfl).2.1
      (by decide)
    simpa using h

/-! ### Dispatch lemmas for `step` -/

lemma step_eq_inputChar (a : App) (c : Char) (now : Nat) (fresh : List Char)
    (h0 : a.exit = false) (h1 : a.app_state = .Input) :
    step a ⟨.char c, now, fresh⟩ = inputChar c now fresh a := by
  simp [step, h0, h1]

lemma step_eq_pause (a : App) (now : Nat) (fresh : List Char)
    (h0 : a.exit = false) (h1 : a.app_state = .Input) :
    step a ⟨.esc, now, fresh⟩ = a.pause now := by
  simp [step, h0, h1]

lemma step_eq_pauseKey (a : App) (k : KeyCode) (now : Nat) (fresh : List Char) (p : Nat)
    (h0 : a.exit = false) (h1 : a.app_state = .Pause p) :
    step a ⟨k, now, fresh⟩ = pauseKey k now a := by
  simp [step, h0, h1]

lemma step_eq_resultsKey (a : App) (k : KeyCode) (now : Nat) (fresh : List Char)
    (cursor : Nat) (h0 : a.exit = false) (h1 : a.app_state = .Results cursor) :
    step a ⟨k, now, fresh⟩ = resultsKey cursor k fresh a := by
  simp [step, h0, h1]

lemma step_eq_settingsKey (a : App) (k : KeyCode) (now : Nat) (fresh : List Char)
    (h0 : a.exit = false) (h1 : a.app_state = .Settings) :
    step a ⟨k, now, fresh⟩ = settingsKey k fresh a := by
  simp [step, h0, h1]

lemma pauseKey_q (now : Nat) (a : App) :
    pauseKey (.char 'q') now a = { a with exit := true } := rfl

lemma pauseKey_s (now : Nat) (a : App) :
    pauseKey (.char 's') now a = a.open_settings := rfl

lemma pauseKey_char_other {c : Char} (now : Nat) (a : App)
    (hq : ¬ c = 'q') (hss : ¬ c = 's') : pauseKey (.char c) now a = a.resume now := by
  simp only [pauseKey]
  rw [if_neg hq, if_neg hss]

lemma resultsKey_q (cursor : Nat) (fresh : List Char) (a : App) :
    resultsKey cursor (.char 'q') fresh a = { a with exit := true } := rfl

lemma resultsKey_r (cursor : Nat) (fresh : List Char) (a : App) :
    resultsKey cursor (.char 'r') fresh a = a.restart fresh := rfl

lemma resultsKey_char_other {c : Char} (cursor : Nat) (fresh : List Char) (a : App)
    (hq : ¬ c = 'q') (hr : ¬ c = 'r') (hss : ¬ c = 's') :
    resultsKey cursor (.char c) fresh a = a := by
  simp only [resultsKey]
  rw [if_neg hq, if_neg hr, if_neg hss]

/-! ### C6: starting the timer is guarded -/

/-- C6: the event loop starts the timing engine only when `start` is not
yet set (main.rs 305-307), so processing a printable character in a
session whose `start` is already recorded leaves `start` exactly as it
was: the session-level start operation is an idempotent no-op. -/
theorem claim6_start_idempotent (a : App) (t : Nat) (c : Char) (now : Nat)
    (fresh : List Char) (h0 : a.exit = false) (h1 : a.app_state = .Input)
    (h2 : a.start = some t) :
    (step a ⟨.char c, now, fresh⟩).start = some t := by
  rw [step_eq_inputChar a c now fresh h0 h1]
  unfold inputChar
  dsimp only
  split_ifs <;> simp_all [App.finish, App.new_word]

/-- Witness for C6: a session already started at instant 17 keeps
`start = 17` when another character arrives at instant 99. -/
theorem claim6_witness :
    (step { App.default with start := some 17, current_word := ['a', 'b'] }
      ⟨.char 'a', 99, ['c', 'd']⟩).start = some 17 :=
  claim6_start_idempotent _ 17 'a' 99 ['c', 'd'] rfl rfl rfl

/-! ### C7: per-character mismatch tracking and word finalization -/

/-- C7: an accepted printable character is appended to the input; it is
compared at its 0-based character index against the target word's
character there (an index beyond the target counting as a mismatch, which
records the index in `wrong_input_chars`); and the word is finalized with
exactly the accumulated wrong indices as soon as the typed length reaches
the target's character count. -/
theorem claim7_char_tracking (a : App) (c : Char) (now : Nat) (fresh : List Char)
    (h0 : a.exit = false) (h1 : a.app_state = .Input) :
    ((a.input.length + 1 < a.current_word.length →
       (step a ⟨.char c, now, fresh⟩).input = a.input ++ [c] ∧
       (step a ⟨.char c, now, fresh⟩).wrong_input_chars =
         (if a.current_word.get? a.input.length ≠ some c
          then insert a.input.length a.wrong_input_chars
          else a.wrong_input_chars) ∧
       (step a ⟨.char c, now, fresh⟩).words = a.words) ∧
     (a.current_word.length ≤ a.input.length + 1 →
       (step a ⟨.char c, now, fresh⟩).words =
         a.words ++ [Word.mk a.current_word
           (if a.current_word.get? a.input.length ≠ some c
            then insert a.input.length a.wrong_input_chars
            else a.wrong_input_chars)] ∧
       (step a ⟨.char c, now, fresh⟩).wrong_input_chars = ∅)) := by
  rw [step_eq_inputChar a c now fresh h0 h1]
  unfold inputChar
  dsimp only
  have e1 : (a.input ++ [c]).length - 1 = a.input.length := by simp
  have e2 : (a.input ++ [c]).get? a.input.length = some c := List.get?_concat_length _ _
  have e3 : (a.input ++ [c]).length = a.input.length + 1 := by simp
  rw [e1, e2, e3]
  by_cases hcomp : a.current_word.length ≤ a.input.length + 1
  · rw [if_pos hcomp]
    constructor
    · intro hlt
      exact absurd hcomp (by omega)
    · intro hge
      split_ifs <;> simp [App.finish, App.new_word]
  · rw [if_neg hcomp]
    constructor
    · intro hlt
      split_ifs <;> simp
    · intro hge
      exact absurd hge hcomp

/-- Witness for C7 at the spec's example: target `"HELLO"`, input so far
`"HELX"` with the mismatch at index 3 recorded, typing `'O'` finalizes the
word with `wrongChars = {3}`. -/
theorem claim7_witness :
    (step helloApp ⟨.char 'O', 0, "WORLD".data⟩).words = [Word.mk "HELLO".data {3}] ∧
    (step helloApp ⟨.char 'O', 0, "WORLD".data⟩).wrong_input_chars = ∅ := by
  have h := (claim7_char_tracking helloApp 'O' 0 "WORLD".data rfl rfl).2 (by decide)
  refine ⟨?_, h.2⟩
  rw [h.1]
  decide

/-! ### C2: limit-field adjustment bounds -/

lemma settingsKey_left_limit (a : App) (fresh : List Char)
    (h : a.selected_setting = .Limit) :
    settingsKey .left fresh a = { a with temp_limit := limitLeft a.temp_limit } := by
  simp [settingsKey, h]

lemma settingsKey_right_limit (a : App) (fresh : List Char)
    (h : a.selected_setting = .Limit) :
    settingsKey .right fresh a = { a with temp_limit := limitRight a.temp_limit } := by
  simp [settingsKey, h]

lemma limitLeft_parse {s : List Char} (hd : s.all (·.isDigit) = true) :
    rustParseUnsigned U64MAX (limitLeft s) =
      some (max 1 ((rustParseI32 s).getD 1 - 1)).toNat := by
  rw [limitLeft]
  apply rustParseUnsigned_natToString
  rw [rustParseI32_of_digits hd]
  cases hp : parseDigits I32MAX s with
  | none => norm_num [U64MAX]
  | some n =>
    have hn : n ≤ I32MAX := parseDigits_le hp
    show (max 1 ((n : Int) - 1)).toNat ≤ U64MAX
    have h1 : (max 1 ((n : Int) - 1)).toNat ≤ n + 1 := by omega
    have h2 : I32MAX + 1 ≤ U64MAX := by norm_num [I32MAX, U64MAX]
    omega

/-- C2: on a digit-only staged limit buffer (every reachable buffer is
one), the Left key rewrites the buffer to the decimal representation of
`max(1, v − 1)` — `v` being the parsed value, with fallback `1` — which
is always at least `1` and never `0` or negative; the Right key always
leaves a buffer whose value is at most `65535`.  Neither operation can
fail: the Left arm parses at the (inferred) `i32` type, so the subtraction
is signed and cannot underflow. -/
theorem claim2_limit_adjust_bounds (a : App) (now : Nat) (fresh : List Char)
    (h0 : a.exit = false) (h1 : a.app_state = .Settings)
    (h2 : a.selected_setting = .Limit)
    (hd : a.temp_limit.all (·.isDigit) = true) :
    (rustParseUnsigned U64MAX (step a ⟨.left, now, fresh⟩).temp_limit =
        some (max 1 ((rustParseI32 a.temp_limit).getD 1 - 1)).toNat ∧
      1 ≤ (max 1 ((rustParseI32 a.temp_limit).getD 1 - 1)).toNat) ∧
    ∃ m : Nat, rustParseUnsigned U64MAX (step a ⟨.right, now, fresh⟩).temp_limit = some m ∧
      m ≤ 65535 := by
  have hL : step a ⟨.left, now, fresh⟩ = { a with temp_limit := limitLeft a.temp_limit } := by
    rw [step_eq_settingsKey a .left now fresh h0 h1]
    exact settingsKey_left_limit a fresh h2
  have hR : step a ⟨.right, now, fresh⟩ = { a with temp_limit := limitRight a.temp_limit } := by
    rw [step_eq_settingsKey a .right now fresh h0 h1]
    exact settingsKey_right_limit a fresh h2
  refine ⟨⟨?_, by omega⟩, ?_⟩
  · rw [hL]
    exact limitLeft_parse hd
  · refine ⟨min 65535 (min U64MAX ((rustParseUnsigned U64MAX a.temp_limit).getD 0 + 1)),
      ?_, Nat.min_le_left _ _⟩
    rw [hR]
    show rustParseUnsigned U64MAX (limitRight a.temp_limit) = _
    rw [limitRight]
    exact rustParseUnsigned_natToString
      (le_trans (Nat.min_le_left _ _) (by norm_num [U64MAX]))

/-- Witness for C2: buffer `"1"`, Left floors at value 1, Right reaches
value 2 (≤ 65535). -/
theorem claim2_witness :
    rustParseUnsigned U64MAX (step limitApp ⟨.left, 0, []⟩).temp_limit = some 1 ∧
    (∃ m : Nat, rustParseUnsigned U64MAX (step limitApp ⟨.right, 0, []⟩).temp_limit =
      some m ∧ m ≤ 65535) := by
  have h := claim2_limit_adjust_bounds limitApp 0 [] rfl rfl rfl (by decide)
  refine ⟨?_, h.2⟩
  rw [h.1.1]
  decide

/-! ### C5: identical settings commit does not restart -/

/-- C5: pressing Enter in Settings when the staged language equals the
live language and the staged limit text resolves to the live limit commits
nothing: no restart happens, and `words`, `input`, `wrong_input_chars`,
`wrong_words`, `start` and `finished_time` are all left untouched (the
phase simply returns to Input).  `settings_changed = false` holds in every
reachable Settings state (`settings_changed_reach`). -/
theorem claim5_identity_commit_no_restart (a : App) (now : Nat) (fresh : List Char)
    (h0 : a.exit = false) (h1 : a.app_state = .Settings)
    (h2 : a.settings_changed = false) (h3 : a.temp_lang = a.lang)
    (h4 : a.new_limit = a.words_limit) :
    (step a ⟨.enter, now, fresh⟩).words = a.words ∧
    (step a ⟨.enter, now, fresh⟩).input = a.input ∧
    (step a ⟨.enter, now, fresh⟩).wrong_input_chars = a.wrong_input_chars ∧
    (step a ⟨.enter, now, fresh⟩).wrong_words = a.wrong_words ∧
    (step a ⟨.enter, now, fresh⟩).start = a.start ∧
    (step a ⟨.enter, now, fresh⟩).finished_time = a.finished_time ∧
    (step a ⟨.enter, now, fresh⟩).app_state = AppState.Input := by
  have happ : a.apply_settings = a := by
    rw [App.apply_settings, if_neg]
    simp [h3, h4]
  have hs : step a ⟨.enter, now, fresh⟩ = { a with app_state := AppState.Input } := by
    rw [step_eq_settingsKey a .enter now fresh h0 h1]
    simp only [settingsKey]
    rw [happ]
    simp [h2]
  rw [hs]
  exact ⟨rfl, rfl, rfl, rfl, rfl, rfl, rfl⟩

/-- Witness for C5: the default app in Settings (staged `"50"` = live 50,
staged `En` = live `En`) commits without any restart. -/
theorem claim5_witness :
    (step { App.default with app_state := .Settings } ⟨.enter, 3, ['z']⟩).words = [] ∧
    (step { App.default with app_state := .Settings } ⟨.enter, 3, ['z']⟩).app_state =
      AppState.Input := by
  have h := claim5_identity_commit_no_restart { App.default with app_state := .Settings }
    3 ['z'] rfl rfl rfl rfl (by decide)
  exact ⟨h.1.trans rfl, h.2.2.2.2.2.2⟩

/-! ### C1: the word-count/phase coupling fails through Results → Settings -/

/-- Counterexample to C1 as stated: on a fresh session with
`words_limit = 1` and first word `"a"`, the four key events of `breakEvs`
(finish the word, press `s` in Results, press escape in Settings without
changing anything, type one more character) leave a state whose completed
word count is 2 — strictly above `words_limit = 1` — even though the
session is back in the Results phase.  The escape arm of the Settings
branch (main.rs 352-358) always returns to `Input`, and `finish` never
cleared `input`, so one further keystroke completes a second word. -/
theorem claim1_counterexample :
    (App.init .En 1 ['a']).words_limit = 1 ∧
    breakApp.words.length = 2 ∧ breakApp.words_limit = 1 ∧
    isResults breakApp.app_state = true := by decide

/-! ### C10: a recorded wrong index can equal the word's length -/

/-- Counterexample to C10 as stated: along `breakEvs` (all supplied words
nonempty), the second `WordResult` pushed is `⟨"a", {1}⟩` — its recorded
wrong index 1 is not strictly below the word's character count 1.  The
same Results → Settings → escape path leaves the finished word's input in
place, so the next keystroke is compared at index 1 of the one-character
target. -/
theorem claim10_counterexample :
    (∀ e ∈ breakEvs, 1 ≤ e.fresh.length) ∧
    1 ≤ (App.init .En 1 ['a']).current_word.length ∧
    ∃ w ∈ breakApp.words, ∃ i ∈ w.wrong_chars, w.word.length ≤ i := by decide

/-! ### Operation field lemmas -/

lemma restart_fields (a : App) (fresh : List Char) :
    (a.restart fresh).words = [] ∧ (a.restart fresh).words_limit = a.words_limit ∧
    (a.restart fresh).app_state = AppState.Input ∧ (a.restart fresh).input = [] ∧
    (a.restart fresh).wrong_input_chars = ∅ ∧ (a.restart fresh).current_word = fresh ∧
    (a.restart fresh).settings_changed = a.settings_changed := by
  simp [App.restart, App.new_word]

lemma resume_fields (a : App) (now : Nat) :
    (a.resume now).words = a.words ∧ (a.resume now).words_limit = a.words_limit ∧
    (a.resume now).app_state = AppState.Input ∧ (a.resume now).input = a.input ∧
    (a.resume now).wrong_input_chars = a.wrong_input_chars ∧
    (a.resume now).current_word = a.current_word ∧
    (a.resume now).settings_changed = a.settings_changed := by
  cases a with
  | mk ex st cw inp s ft wic wl lg ws ww sc sel tl tlim =>
    cases st <;> cases s <;> simp [App.resume]

lemma new_limit_pos (a : App) (h : 1 ≤ a.words_limit) : 1 ≤ a.new_limit := by
  rw [App.new_limit]
  cases hp : rustParseUnsigned U64MAX a.temp_limit with
  | none => simpa using h
  | some v =>
    simp only [Option.map_some', Option.getD_some]
    split_ifs with h0 <;> omega

lemma apply_settings_fields (a : App) :
    (a.apply_settings).words = a.words ∧ (a.apply_settings).app_state = a.app_state ∧
    (a.apply_settings).input = a.input ∧
    (a.apply_settings).wrong_input_chars = a.wrong_input_chars ∧
    (a.apply_settings).current_word = a.current_word := by
  rw [App.apply_settings]
  split_ifs <;> exact ⟨rfl, rfl, rfl, rfl, rfl⟩

lemma apply_settings_limit_pos (a : App) (h : 1 ≤ a.words_limit) :
    1 ≤ (a.apply_settings).words_limit := by
  rw [App.apply_settings]
  split_ifs
  · exact new_limit_pos a h
  · exact h

/-! ### The C1 invariant: preservation and reachability -/

lemma phaseWords_of_results {b : App} {cur : Nat}
    (hb : b.app_state = AppState.Results cur) (h : b.words.length = b.words_limit) :
    phaseWords b := by
  rw [phaseWords, hb]
  simpa [isResults] using h

lemma phaseWords_of_not_results {b : App} (hb : isResults b.app_state = false)
    (h : b.words.length < b.words_limit) : phaseWords b := by
  rw [phaseWords, hb]
  simpa using h

lemma inv1_inputChar (a : App) (ch : Char) (now : Nat) (fresh : List Char)
    (hlim : 1 ≤ a.words_limit) (hst : a.app_state = AppState.Input)
    (hw : a.words.length < a.words_limit) :
    Inv1 (inputChar ch now fresh a) := by
  unfold inputChar
  dsimp only
  by_cases hcomp : a.current_word.length ≤ (a.input ++ [ch]).length
  · rw [if_pos hcomp]
    split_ifs <;> refine ⟨hlim, ?_⟩ <;>
      first
        | exact phaseWords_of_results rfl (by
            dsimp only [App.finish]
            simp only [List.length_append, List.length_singleton] at *
            omega)
        | exact phaseWords_of_not_results
            (by show isResults a.app_state = false; rw [hst]; decide) (by
            dsimp only [App.new_word]
            simp only [List.length_append, List.length_singleton] at *
            omega)
  · rw [if_neg hcomp]
    exact ⟨hlim, phaseWords_of_not_results
      (by show isResults a.app_state = false; rw [hst]; decide) hw⟩

lemma inv1_step (a : App) (e : Ev) (h : Inv1 a)
    (hs : (isResults a.app_state && decide (e.key = KeyCode.char 's')) = false) :
    Inv1 (step a e) := by
  obtain ⟨hlim, hpw⟩ := h
  obtain ⟨k, now, fresh⟩ := e
  by_cases hex : a.exit = true
  · simp only [step, hex, if_true]
    exact ⟨hlim, hpw⟩
  have hex' : a.exit = false := by simpa using hex
  cases hst : a.app_state with
  | Input =>
    have hw : a.words.length < a.words_limit := by
      rw [phaseWords, hst] at hpw
      simpa [isResults] using hpw
    cases k with
    | esc =>
      rw [step_eq_pause a now fresh hex' hst]
      exact ⟨hlim, phaseWords_of_not_results rfl hw⟩
    | char c =>
      rw [step_eq_inputChar a c now fresh hex' hst]
      exact inv1_inputChar a c now fresh hlim hst hw
    | enter => simp only [step, hex', hst]; exact ⟨hlim, hpw⟩
    | up => simp only [step, hex', hst]; exact ⟨hlim, hpw⟩
    | down => simp only [step, hex', hst]; exact ⟨hlim, hpw⟩
    | left => simp only [step, hex', hst]; exact ⟨hlim, hpw⟩
    | right => simp only [step, hex', hst]; exact ⟨hlim, hpw⟩
    | backspace => simp only [step, hex', hst]; exact ⟨hlim, hpw⟩
  | Pause p =>
    have hw : a.words.length < a.words_limit := by
      rw [phaseWords, hst] at hpw
      simpa [isResults] using hpw
    have hIs : isResults a.app_state = false := by rw [hst]; rfl
    rw [step_eq_pauseKey a k now fresh p hex' hst]
    have hres : Inv1 (a.resume now) := by
      obtain ⟨w1, w2, w3, _⟩ := resume_fields a now
      refine ⟨by rw [w2]; exact hlim, phaseWords_of_not_results ?_ ?_⟩
      · rw [w3]
        rfl
      · rw [w1, w2]
        exact hw
    cases k with
    | char c =>
      by_cases hq : c = 'q'
      · subst hq
        rw [pauseKey_q]
        exact ⟨hlim, phaseWords_of_not_results hIs hw⟩
      by_cases hss : c = 's'
      · subst hss
        rw [pauseKey_s]
        exact ⟨hlim, phaseWords_of_not_results rfl hw⟩
      · rw [pauseKey_char_other now a hq hss]
        exact hres
    | esc => exact hres
    | enter => exact hres
    | up => exact hres
    | down => exact hres
    | left => exact hres
    | right => exact hres
    | backspace => exact hres
  | Results cursor =>
    have hw : a.words.length = a.words_limit := by
      rw [phaseWords, hst] at hpw
      simpa [isResults] using hpw
    rw [step_eq_resultsKey a k now fresh cursor hex' hst]
    cases k with
    | up => exact ⟨hlim, phaseWords_of_results rfl hw⟩
    | down => exact ⟨hlim, phaseWords_of_results rfl hw⟩
    | char c =>
      have hcs : ¬ c = 's' := by
        intro hc
        subst hc
        rw [hst] at hs
        simp [isResults] at hs
      by_cases hq : c = 'q'
      · subst hq
        rw [resultsKey_q]
        exact ⟨hlim, phaseWords_of_results hst hw⟩
      by_cases hr : c = 'r'
      · subst hr
        rw [resultsKey_r]
        obtain ⟨w1, w2, w3, _⟩ := restart_fields a fresh
        refine ⟨by rw [w2]; exact hlim, phaseWords_of_not_results ?_ ?_⟩
        · rw [w3]
          rfl
        · rw [w1, w2]
          simpa using hlim
      · rw [resultsKey_char_other cursor fresh a hq hr hcs]
        exact ⟨hlim, hpw⟩
    | esc => exact ⟨hlim, hpw⟩
    | enter => exact ⟨hlim, hpw⟩
    | left => exact ⟨hlim, hpw⟩
    | right => exact ⟨hlim, hpw⟩
    | backspace => exact ⟨hlim, hpw⟩
  | Settings =>
    have hw : a.words.length < a.words_limit := by
      rw [phaseWords, hst] at hpw
      simpa [isResults] using hpw
    have hIs : isResults a.app_state = false := by rw [hst]; rfl
    rw [step_eq_settingsKey a k now fresh hex' hst]
    cases k with
    | esc =>
      simp only [settingsKey]
      split_ifs with hch
      · obtain ⟨w1, w2, w3, _⟩ := restart_fields { a with app_state := AppState.Input } fresh
        refine ⟨?_, phaseWords_of_not_results ?_ ?_⟩
        · show 1 ≤ (({ a with app_state := AppState.Input } : App).restart fresh).words_limit
          rw [w2]
          exact hlim
        · show isResults (({ a with app_state := AppState.Input } : App).restart
            fresh).app_state = false
          rw [w3]
          rfl
        · show (({ a with app_state := AppState.Input } : App).restart fresh).words.length <
            (({ a with app_state := AppState.Input } : App).restart fresh).words_limit
          rw [w1, w2]
          simpa using hlim
      · exact ⟨hlim, phaseWords_of_not_results rfl hw⟩
    | enter =>
      simp only [settingsKey]
      have hl1 : 1 ≤ (a.apply_settings).words_limit := apply_settings_limit_pos a hlim
      split_ifs with hch
      · obtain ⟨w1, w2, w3, _⟩ :=
          restart_fields { a.apply_settings with app_state := AppState.Input } fresh
        refine ⟨?_, phaseWords_of_not_results ?_ ?_⟩
        · show 1 ≤ (({ a.apply_settings with app_state := AppState.Input } : App).restart
            fresh).words_limit
          rw [w2]
          exact hl1
        · show isResults (({ a.apply_settings with app_state := AppState.Input } :
            App).restart fresh).app_state = false
          rw [w3]
          rfl
        · show (({ a.apply_settings with app_state := AppState.Input } : App).restart
              fresh).words.length <
            (({ a.apply_settings with app_state := AppState.Input } : App).restart
              fresh).words_limit
          rw [w1, w2]
          simpa using hl1
      · -- the flag stayed false, so `apply_settings` committed nothing
        have hca : a.apply_settings = a := by
          by_cases hcc : a.lang ≠ a.temp_lang ∨ a.words_limit ≠ a.new_limit
          · exfalso
            apply hch
            show (a.apply_settings).settings_changed = true
            rw [App.apply_settings, if_pos hcc]
          · rw [App.apply_settings, if_neg hcc]
        refine ⟨by rw [hca]; exact hlim, ?_⟩
        rw [hca]
        exact phaseWords_of_not_results rfl hw
    | up => exact ⟨hlim, hpw⟩
    | down => exact ⟨hlim, hpw⟩
    | left =>
      cases hsel : a.selected_setting <;> simp only [settingsKey, hsel] <;>
        exact ⟨hlim, phaseWords_of_not_results hIs hw⟩
    | right =>
      cases hsel : a.selected_setting <;> simp only [settingsKey, hsel] <;>
        exact ⟨hlim, phaseWords_of_not_results hIs hw⟩
    | char c =>
      simp only [settingsKey]
      split_ifs
      · exact ⟨hlim, phaseWords_of_not_results hIs hw⟩
      · exact ⟨hlim, hpw⟩
    | backspace =>
      simp only [settingsKey]
      split_ifs
      · exact ⟨hlim, phaseWords_of_not_results hIs hw⟩
      · exact ⟨hlim, hpw⟩

lemma inv1_reach (a : App) (evs : List Ev) (h : Inv1 a)
    (hav : avoidsResultsSettings a evs = true) : Inv1 (reach a evs) := by
  induction evs generalizing a with
  | nil => exact h
  | cons e es ih =>
    rw [avoidsResultsSettings, Bool.and_eq_true] at hav
    refine ih (step a e) (inv1_step a e h ?_) hav.2
    cases hb : (isResults a.app_state && decide (e.key = KeyCode.char 's')) with
    | false => rfl
    | true =>
      exfalso
      have hcontra := hav.1
      rw [hb] at hcontra
      simp at hcontra

/-- C1 (amended): under every key-event sequence that never presses `s`
while in the Results phase, the completed word count never exceeds
`words_limit` and equals it exactly when the phase is Results.  The
original claim also covered the Results → Settings → escape path, on which
it fails (see the counterexample above). -/
theorem claim1_amended_phase_coupling (lang : Lang) (limit : Nat) (w0 : List Char)
    (evs : List Ev) (hlim : 1 ≤ limit)
    (hav : avoidsResultsSettings (App.init lang limit w0) evs = true) :
    (reach (App.init lang limit w0) evs).words.length ≤
      (reach (App.init lang limit w0) evs).words_limit ∧
    ((reach (App.init lang limit w0) evs).words.length =
        (reach (App.init lang limit w0) evs).words_limit ↔
      isResults (reach (App.init lang limit w0) evs).app_state = true) := by
  have h0 : Inv1 (App.init lang limit w0) := by
    refine ⟨hlim, phaseWords_of_not_results rfl ?_⟩
    show 0 < limit
    omega
  obtain ⟨hl, hpw⟩ := inv1_reach _ evs h0 hav
  rw [phaseWords] at hpw
  by_cases hr : isResults (reach (App.init lang limit w0) evs).app_state = true
  · rw [if_pos hr] at hpw
    exact ⟨le_of_eq hpw, ⟨fun _ => hr, fun _ => hpw⟩⟩
  · rw [if_neg hr] at hpw
    exact ⟨le_of_lt hpw, ⟨fun he => absurd he (Nat.ne_of_lt hpw), fun hres => absurd hres hr⟩⟩

/-- Witness for the amended C1: a one-word session typed to completion
reaches Results with exactly `words_limit` completed words. -/
theorem claim1_witness :
    (reach (App.init .En 1 ['a']) [⟨.char 'a', 0, ['b']⟩]).words.length ≤
      (reach (App.init .En 1 ['a']) [⟨.char 'a', 0, ['b']⟩]).words_limit ∧
    ((reach (App.init .En 1 ['a']) [⟨.char 'a', 0, ['b']⟩]).words.length =
        (reach (App.init .En 1 ['a']) [⟨.char 'a', 0, ['b']⟩]).words_limit ↔
      isResults (reach (App.init .En 1 ['a']) [⟨.char 'a', 0, ['b']⟩]).app_state = true) :=
  claim1_amended_phase_coupling .En 1 ['a'] [⟨.char 'a', 0, ['b']⟩] (by decide) (by decide)

/-! ### The settings-changed flag is false in every reachable state -/

lemma settings_changed_step (a : App) (e : Ev) (h : a.settings_changed = false) :
    (step a e).settings_changed = false := by
  obtain ⟨k, now, fresh⟩ := e
  by_cases hex : a.exit = true
  · simp only [step, hex, if_true]
    exact h
  have hex' : a.exit = false := by simpa using hex
  cases hst : a.app_state with
  | Input =>
    cases k with
    | esc =>
      rw [step_eq_pause a now fresh hex' hst]
      exact h
    | char c =>
      rw [step_eq_inputChar a c now fresh hex' hst]
      unfold inputChar
      dsimp only
      split_ifs <;> exact h
    | enter => simp only [step, hex', hst]; exact h
    | up => simp only [step, hex', hst]; exact h
    | down => simp only [step, hex', hst]; exact h
    | left => simp only [step, hex', hst]; exact h
    | right => simp only [step, hex', hst]; exact h
    | backspace => simp only [step, hex', hst]; exact h
  | Pause p =>
    rw [step_eq_pauseKey a k now fresh p hex' hst]
    have hres : (a.resume now).settings_changed = false := by
      rw [(resume_fields a now).2.2.2.2.2.2]
      exact h
    cases k with
    | char c =>
      by_cases hq : c = 'q'
      · subst hq
        rw [pauseKey_q]
        exact h
      by_cases hss : c = 's'
      · subst hss
        rw [pauseKey_s]
        exact h
      · rw [pauseKey_char_other now a hq hss]
        exact hres
    | esc => exact hres
    | enter => exact hres
    | up => exact hres
    | down => exact hres
    | left => exact hres
    | right => exact hres
    | backspace => exact hres
  | Results cursor =>
    rw [step_eq_resultsKey a k now fresh cursor hex' hst]
    cases k with
    | up => exact h
    | down => exact h
    | char c =>
      by_cases hq : c = 'q'
      · subst hq
        rw [resultsKey_q]
        exact h
      by_cases hr : c = 'r'
      · subst hr
        rw [resultsKey_r]
        rw [(restart_fields a fresh).2.2.2.2.2.2]
        exact h
      by_cases hss : c = 's'
      · subst hss
        exact h
      · rw [resultsKey_char_other cursor fresh a hq hr hss]
        exact h
    | esc => exact h
    | enter => exact h
    | left => exact h
    | right => exact h
    | backspace => exact h
  | Settings =>
    rw [step_eq_settingsKey a k now fresh hex' hst]
    cases k with
    | esc =>
      simp only [settingsKey]
      split_ifs with hch
      · show false = false
        rfl
      · exact h
    | enter =>
      simp only [settingsKey]
      split_ifs with hch
      · show false = false
        rfl
      · -- the else branch carries the (false) flag of `apply_settings`
        show (a.apply_settings).settings_changed = false
        simpa using hch
    | up => exact h
    | down => exact h
    | left =>
      cases hsel : a.selected_setting <;> simp only [settingsKey, hsel] <;> exact h
    | right =>
      cases hsel : a.selected_setting <;> simp only [settingsKey, hsel] <;> exact h
    | char c =>
      simp only [settingsKey]
      split_ifs <;> exact h
    | backspace =>
      simp only [settingsKey]
      split_ifs <;> exact h

lemma settings_changed_reach (a : App) (evs : List Ev) (h : a.settings_changed = false) :
    (reach a evs).settings_changed = false := by
  induction evs generalizing a with
  | nil => exact h
  | cons e es ih => exact ih (step a e) (settings_changed_step a e h)

/-! ### The C10 invariant: preservation and reachability -/

lemma inv10_restart (a : App) (fresh : List Char) (hf : 1 ≤ fresh.length) :
    Inv10 (a.restart fresh) := by
  obtain ⟨w1, w2, w3, w4, w5, w6, w7⟩ := restart_fields a fresh
  refine ⟨by rw [w6]; exact hf, ?_, Or.inr w5, ?_⟩
  · intro i hi
    rw [w5] at hi
    exact absurd hi (Finset.not_mem_empty i)
  · rw [w1]
    intro w hw
    exact absurd hw (List.not_mem_nil w)

lemma inv10_resume (a : App) (now : Nat) (h : Inv10 a) : Inv10 (a.resume now) := by
  obtain ⟨w1, w2, w3, w4, w5, w6, w7⟩ := resume_fields a now
  obtain ⟨h1, h2, h3, h4⟩ := h
  refine ⟨by rw [w6]; exact h1, ?_, ?_, by rw [w1]; exact h4⟩
  · intro i hi
    rw [w5] at hi
    rw [w4]
    exact h2 i hi
  · rw [w4, w5, w6]
    exact h3

lemma inv10_inputChar (a : App) (ch : Char) (now : Nat) (fresh : List Char)
    (h : Inv10 a) (hf : 1 ≤ fresh.length) : Inv10 (inputChar ch now fresh a) := by
  obtain ⟨h1, h2, h3, h4⟩ := h
  unfold inputChar
  dsimp only
  have hidx : (a.input ++ [ch]).length - 1 = a.input.length := by simp
  have hlen : (a.input ++ [ch]).length = a.input.length + 1 := by simp
  rw [hidx, hlen]
  set W := (if a.current_word.get? a.input.length ≠ (a.input ++ [ch]).get? a.input.length
    then insert a.input.length a.wrong_input_chars else a.wrong_input_chars) with hW
  have hWsub : ∀ i ∈ W, i < a.input.length + 1 := by
    intro i hi
    rw [hW] at hi
    split at hi
    · rcases Finset.mem_insert.mp hi with hcase | hcase
      · omega
      · have := h2 i hcase
        omega
    · have := h2 i hi
      omega
  have hWcard : a.current_word.length ≤ a.input.length + 1 → W.card ≤ a.current_word.length := by
    intro hcomp
    rcases h3 with h3l | h3e
    · have hsub : W ⊆ Finset.range (a.input.length + 1) :=
        fun i hi => Finset.mem_range.mpr (hWsub i hi)
      have := Finset.card_le_card hsub
      rw [Finset.card_range] at this
      omega
    · have hsub : W ⊆ insert a.input.length (∅ : Finset Nat) := by
        rw [hW, h3e]
        split_ifs <;> intro i hi
        · exact hi
        · simp at hi
      have := Finset.card_le_card hsub
      have hone : (insert a.input.length (∅ : Finset Nat)).card = 1 := by
        rw [Finset.card_insert_of_not_mem (Finset.not_mem_empty _), Finset.card_empty]
      omega
  by_cases hcomp : a.current_word.length ≤ a.input.length + 1
  · rw [if_pos hcomp]
    have h4p : goodWords (a.words ++ [Word.mk a.current_word W]) := by
      intro w hw
      rcases List.mem_append.mp hw with hcase | hcase
      · exact h4 w hcase
      · rw [List.mem_singleton] at hcase
        subst hcase
        show W.card ≤ a.current_word.length
        exact hWcard hcomp
    split_ifs <;>
      first
        | exact ⟨h1, fun i hi => absurd hi (Finset.not_mem_empty i), Or.inr rfl, h4p⟩
        | exact ⟨hf, fun i hi => absurd hi (Finset.not_mem_empty i), Or.inr rfl, h4p⟩
  · rw [if_neg hcomp]
    refine ⟨h1, ?_, ?_, h4⟩
    · intro i hi
      have := hWsub i hi
      show i < (a.input ++ [ch]).length
      omega
    · left
      show (a.input ++ [ch]).length < a.current_word.length
      omega

lemma inv10_step (a : App) (e : Ev) (h : Inv10 a) (hf : 1 ≤ e.fresh.length) :
    Inv10 (step a e) := by
  obtain ⟨k, now, fresh⟩ := e
  replace hf : 1 ≤ fresh.length := hf
  by_cases hex : a.exit = true
  · simp only [step, hex, if_true]
    exact h
  have hex' : a.exit = false := by simpa using hex
  cases hst : a.app_state with
  | Input =>
    cases k with
    | esc =>
      rw [step_eq_pause a now fresh hex' hst]
      exact h
    | char c =>
      rw [step_eq_inputChar a c now fresh hex' hst]
      exact inv10_inputChar a c now fresh ⟨h.1, h.2.1, h.2.2.1, h.2.2.2⟩ hf
    | enter => simp only [step, hex', hst]; exact h
    | up => simp only [step, hex', hst]; exact h
    | down => simp only [step, hex', hst]; exact h
    | left => simp only [step, hex', hst]; exact h
    | right => simp only [step, hex', hst]; exact h
    | backspace => simp only [step, hex', hst]; exact h
  | Pause p =>
    rw [step_eq_pauseKey a k now fresh p hex' hst]
    cases k with
    | char c =>
      by_cases hq : c = 'q'
      · subst hq
        rw [pauseKey_q]
        exact h
      by_cases hss : c = 's'
      · subst hss
        rw [pauseKey_s]
        exact h
      · rw [pauseKey_char_other now a hq hss]
        exact inv10_resume a now h
    | esc => exact inv10_resume a now h
    | enter => exact inv10_resume a now h
    | up => exact inv10_resume a now h
    | down => exact inv10_resume a now h
    | left => exact inv10_resume a now h
    | right => exact inv10_resume a now h
    | backspace => exact inv10_resume a now h
  | Results cursor =>
    rw [step_eq_resultsKey a k now fresh cursor hex' hst]
    cases k with
    | up => exact h
    | down => exact h
    | char c =>
      by_cases hq : c = 'q'
      · subst hq
        rw [resultsKey_q]
        exact h
      by_cases hr : c = 'r'
      · subst hr
        rw [resultsKey_r]
        exact inv10_restart a fresh hf
      by_cases hss : c = 's'
      · subst hss
        exact h
      · rw [resultsKey_char_other cursor fresh a hq hr hss]
        exact h
    | esc => exact h
    | enter => exact h
    | left => exact h
    | right => exact h
    | backspace => exact h
  | Settings =>
    rw [step_eq_settingsKey a k now fresh hex' hst]
    obtain ⟨h1, h2, h3, h4⟩ := h
    obtain ⟨f1, f2, f3, f4, f5⟩ := apply_settings_fields a
    cases k with
    | esc =>
      simp only [settingsKey]
      split_ifs with hch
      · exact inv10_restart { a with app_state := AppState.Input } fresh hf
      · exact ⟨h1, h2, h3, h4⟩
    | enter =>
      simp only [settingsKey]
      split_ifs with hch
      · exact inv10_restart { a.apply_settings with app_state := AppState.Input } fresh hf
      · refine ⟨?_, ?_, ?_, ?_⟩
        · show 1 ≤ (a.apply_settings).current_word.length
          rw [f5]
          exact h1
        · intro i hi
          have hi' : i ∈ (a.apply_settings).wrong_input_chars := hi
          rw [f4] at hi'
          show i < (a.apply_settings).input.length
          rw [f3]
          exact h2 i hi'
        · show (a.apply_settings).input.length < (a.apply_settings).current_word.length ∨
            (a.apply_settings).wrong_input_chars = ∅
          rw [f3, f4, f5]
          exact h3
        · show goodWords (a.apply_settings).words
          rw [f1]
          exact h4
    | up => exact ⟨h1, h2, h3, h4⟩
    | down => exact ⟨h1, h2, h3, h4⟩
    | left =>
      cases hsel : a.selected_setting <;> simp only [settingsKey, hsel] <;>
        exact ⟨h1, h2, h3, h4⟩
    | right =>
      cases hsel : a.selected_setting <;> simp only [settingsKey, hsel] <;>
        exact ⟨h1, h2, h3, h4⟩
    | char c =>
      simp only [settingsKey]
      split_ifs <;> exact ⟨h1, h2, h3, h4⟩
    | backspace =>
      simp only [settingsKey]
      split_ifs <;> exact ⟨h1, h2, h3, h4⟩

lemma inv10_reach (a : App) (evs : List Ev) (h : Inv10 a)
    (hf : ∀ e ∈ evs, 1 ≤ e.fresh.length) : Inv10 (reach a evs) := by
  induction evs generalizing a with
  | nil => exact h
  | cons e es ih =>
    exact ih (step a e) (inv10_step a e h (hf e (List.mem_cons_self e es)))
      (fun e' he' => hf e' (List.mem_cons_of_mem e he'))

lemma goodWords_sum {ws : List Word} (h : goodWords ws) : wrongSum ws ≤ charSum ws := by
  rw [wrongSum, charSum]
  apply List.sum_le_sum
  intro w hw
  exact h w hw

/-- C10 (amended): assuming the word source never supplies an empty word,
every `WordResult` appended to `words` has a mistake set no larger than
the word's character count — but its indices can reach the word's length
(not always strictly below it, see the counterexample above) — and consequently
the total wrong count never exceeds the total character count, so the
`usize` subtraction in the accuracy computation never underflows. -/
theorem claim10_amended_wrong_bounded (lang : Lang) (limit : Nat) (w0 : List Char)
    (evs : List Ev) (hw0 : 1 ≤ w0.length) (hf : ∀ e ∈ evs, 1 ≤ e.fresh.length) :
    goodWords (reach (App.init lang limit w0) evs).words ∧
    wrongSum (reach (App.init lang limit w0) evs).words ≤
      charSum (reach (App.init lang limit w0) evs).words := by
  have h0 : Inv10 (App.init lang limit w0) := by
    refine ⟨hw0, ?_, Or.inr rfl, ?_⟩
    · intro i hi
      exact absurd hi (Finset.not_mem_empty i)
    · intro w hw
      exact absurd hw (List.not_mem_nil w)
  have h := inv10_reach _ evs h0 hf
  exact ⟨h.2.2.2, goodWords_sum h.2.2.2⟩

/-- Witness for the amended C10: after typing the word `"ab"` with one
mistake, the single completed word has one wrong index against two
characters, and the wrong total 1 is at most the character total 2. -/
theorem claim10_witness :
    goodWords (reach (App.init .En 5 ['a', 'b'])
      [⟨.char 'a', 0, ['c']⟩, ⟨.char 'x', 1, ['c']⟩]).words ∧
    wrongSum (reach (App.init .En 5 ['a', 'b'])
        [⟨.char 'a', 0, ['c']⟩, ⟨.char 'x', 1, ['c']⟩]).words ≤
      charSum (reach (App.init .En 5 ['a', 'b'])
        [⟨.char 'a', 0, ['c']⟩, ⟨.char 'x', 1, ['c']⟩]).words :=
  claim10_amended_wrong_bounded .En 5 ['a', 'b']
    [⟨.char 'a', 0, ['c']⟩, ⟨.char 'x', 1, ['c']⟩] (by decide) (by decide)

end Ktapper
